import Mathlib

/-!
# Verification of the ayab-patterns ROM codec and matcher

Shallow embedding of the two core source files of the repository:

* `extract_patterns.py` — the decode pipeline: BCD codec, memo-nibble array,
  monochrome / multicolor bitmap decoding, and the batch driver `main`.
* `romscan.py` — the matching pipeline: exact substring search, Hamming-distance
  fuzzy search, gap recomputation (`find_gaps`) and ROM redaction
  (`zero_patterns_in_rom`).

The ROM byte buffer is embedded as a total function `Nat → Nat` together with an
explicit size; Python slices `rom[p : p+len]` become `romSlice`, which truncates
at the end of the buffer exactly as Python slicing does.  Machine integers are
`Nat` (all quantities in the source are non-negative Python ints); the few spots
where Python would produce a negative intermediate value are flagged in the
doc-comment of the corresponding definition.
-/

/-- The ROM byte buffer: byte at index `i` is `data i`, total length `size`.
`romscan.py` reads it once at startup (line 221) and treats it as immutable. -/
structure Rom where
  data : Nat → Nat
  size : Nat

/-- Python slice `rom_data[p : p + len]`: the bytes at indices
`p, p+1, …, min (p+len) size - 1` (empty when `p ≥ size`). -/
def romSlice (rom : Rom) (p len : Nat) : List Nat :=
  (List.range' p (min len (rom.size - p))).map rom.data

/-- Index table base address: `index_offset = 0x50000`
(`extract_patterns.py` line 44, `romscan.py` lines 177 and 235). -/
def index_base : Nat := 0x50000

/-- `PATTERN_COUNT = 683` (`extract_patterns.py` line 7). -/
def PATTERN_COUNT : Nat := 683

/-- `PATTERN_RECORD_SIZE = 12` (`extract_patterns.py` line 8). -/
def PATTERN_RECORD_SIZE : Nat := 12

/-- `bcd_to_int` (`extract_patterns.py` lines 11–30): little-endian BCD.
The loop keeps `(result, multiplier)`; each byte contributes
`(low_nibble + high_nibble * 10) * multiplier` and multiplies the multiplier
by 100.  `b & 0x0F = b % 16`, `(b >> 4) & 0x0F = b / 16 % 16`.
No validation of the nibbles is performed by the source. -/
def bcd_to_int (bs : List Nat) : Nat :=
  (bs.foldl
    (fun (acc : Nat × Nat) b =>
      (acc.1 + (b % 16 + (b / 16 % 16) * 10) * acc.2, acc.2 * 100))
    (0, 1)).1

/-- A decoded pattern-index record (`read_pattern_index`, lines 42–60 of
`extract_patterns.py`): type byte, BCD pattern number, BCD width and height,
and the absolute bitmap offset. -/
structure PatternRec where
  ptype : Nat
  number : Nat
  width : Nat
  height : Nat
  offset : Nat
deriving DecidableEq

/-- `memo_value_to_char` (`extract_patterns.py` lines 109–128): values 0–8 map
to their decimal digit, 10 to 'N', 11 to 'F'; anything else raises `ValueError`
(modelled as `none`). -/
def memo_value_to_char (v : Nat) : Option Char :=
  if v ≤ 8 then some (Char.ofNat (48 + v))
  else if v = 10 then some 'N'
  else if v = 11 then some 'F'
  else none

/-- `parse_memo_data` (`extract_patterns.py` lines 130–152): one 4-bit value
per row, two rows per byte, even row = low nibble (`memo_byte & 0x0F`), odd
row = high nibble (`memo_byte >> 4`).  Python indexes `memo_data[row // 2]`,
which is always in range when the memo area lies inside the ROM; out-of-range
reads are given the default 0 here and the theorems that depend on memo
content carry an in-bounds hypothesis. -/
def parse_memo_data (rom : Rom) (offset height : Nat) : List Nat :=
  let memo_bytes := (height + 1) / 2
  let memo_data := romSlice rom offset memo_bytes
  (List.range height).map fun row =>
    let memo_byte := memo_data.getD (row / 2) 0
    if row % 2 = 0 then memo_byte % 16 else memo_byte / 16

/-- Inner double loop of `decode_monochrome_bitmap` (`extract_patterns.py`
lines 72–77): `for byte_idx, byte in enumerate(row_data): for bit in range(8):
x = byte_idx*8 + bit; if x < width: append(bit set ? 1 : 0)`.
The enumeration index is threaded through the recursion. -/
def rowPixelsAux (bytes : List Nat) (byte_idx width : Nat) : List Nat :=
  match bytes with
  | [] => []
  | b :: rest =>
    ((List.range 8).filterMap fun bit =>
      if byte_idx * 8 + bit < width then
        some (if b.testBit bit then 1 else 0)
      else none)
    ++ rowPixelsAux rest (byte_idx + 1) width

/-- `decode_monochrome_bitmap` (`extract_patterns.py` lines 62–79): row stride
`(width + 7) // 8` bytes; bits are LSB-first; bit set ↦ pixel 1. -/
def decode_monochrome_bitmap (rom : Rom) (width height bitmap_offset : Nat) :
    List (List Nat) :=
  let row_bytes := (width + 7) / 8
  (List.range height).map fun row =>
    rowPixelsAux (romSlice rom (bitmap_offset + row * row_bytes) row_bytes) 0 width

/-- Decode errors of the batch pipeline.  The only error raised during pattern
extraction is the `ValueError` of `memo_value_to_char`, which
`extract_monochrome_bitmap` (lines 103–105) reports together with the pattern
number before re-raising; the report is modelled as the error value. -/
inductive BatchError where
  | invalidMemo (patternNumber : Nat) (value : Nat)
deriving DecidableEq

/-- `''.join(memo_value_to_char(v) for v in memo_values)`
(`extract_patterns.py` line 99): the first invalid memo value raises. -/
def memoComment (num : Nat) : List Nat → Except BatchError (List Char)
  | [] => .ok []
  | v :: vs =>
    match memo_value_to_char v with
    | some c => (memoComment num vs).map (fun cs => c :: cs)
    | none => .error (.invalidMemo num v)

/-- The PIL monochrome image built by `extract_monochrome_bitmap`
(lines 90–93): rows reversed, pixel `1 if value == 0 else 0`; plus the
optional `AYAB:` comment characters. -/
structure MonoImage where
  pixels : List (List Nat)
  comment : Option (List Char)
deriving DecidableEq

/-- `extract_monochrome_bitmap` (`extract_patterns.py` lines 81–107).
On an invalid memo value the source prints
`Error processing pattern {number}: …` and re-raises; both the report and the
re-raised exception are modelled by the `Except.error` value, which carries
the pattern number and the offending memo value. -/
def extract_monochrome_bitmap (rom : Rom) (p : PatternRec) :
    Except BatchError MonoImage :=
  let memo_bytes := (p.height + 1) / 2
  let bitmap_offset := p.offset + memo_bytes
  let memo_values := parse_memo_data rom p.offset p.height
  let pixels := decode_monochrome_bitmap rom p.width p.height bitmap_offset
  let img := pixels.reverse.map (fun row => row.map fun v => if v = 0 then 1 else 0)
  if memo_values.any (fun v => v != 0) then
    match memoComment p.number memo_values with
    | .ok cs => .ok ⟨img, some cs⟩
    | .error e => .error e
  else .ok ⟨img, none⟩

/-- `extract_multicolor_bitmap` (`extract_patterns.py` lines 154–201).
`real_height = height // 3`; for each visible row the three stacked source
rows `3r, 3r+1, 3r+2` are examined and the first one whose monochrome bit is
set supplies the colour via its memo value (`memo_for_block[i]`, embedded as
`memo_values.getD (base_row + i)`); all-unset gives colour 0.  The visible
rows are written bottom-to-top (`reversed(pixels)` via `putdata`), embedded
as `.reverse`.  No validation of the memo values is performed. -/
def extract_multicolor_bitmap (rom : Rom) (p : PatternRec) : List (List Nat) :=
  let width := p.width
  let real_height := p.height / 3
  let memo_bytes := (p.height + 1) / 2
  let bitmap_offset := p.offset + memo_bytes
  let memo_values := parse_memo_data rom p.offset p.height
  let mono_pixels := decode_monochrome_bitmap rom width p.height bitmap_offset
  ((List.range real_height).map fun row =>
    let base_row := row * 3
    (List.range width).map fun x =>
      if (mono_pixels.getD base_row []).getD x 0 ≠ 0 then
        memo_values.getD base_row 0
      else if (mono_pixels.getD (base_row + 1) []).getD x 0 ≠ 0 then
        memo_values.getD (base_row + 1) 0
      else if (mono_pixels.getD (base_row + 2) []).getD x 0 ≠ 0 then
        memo_values.getD (base_row + 2) 0
      else 0).reverse

/-- A decoded pattern image (`extract_pattern_bitmap` result). -/
inductive PImage where
  | mono (img : MonoImage)
  | multi (pixels : List (List Nat))
deriving DecidableEq

/-- `extract_pattern_bitmap` (`extract_patterns.py` lines 203–207): dispatch
on the record type byte, `0x02` = monochrome, anything else multicolor. -/
def extract_pattern_bitmap (rom : Rom) (p : PatternRec) :
    Except BatchError PImage :=
  if p.ptype = 2 then (extract_monochrome_bitmap rom p).map .mono
  else .ok (.multi (extract_multicolor_bitmap rom p))

/-- The batch loop of `main` (`extract_patterns.py` lines 224–233): each
pattern is extracted and saved in turn; there is no exception handler around
the loop, so the first decode error aborts it.  The result is the list of
`(number, image)` pairs saved before the abort together with the error that
stopped the run, if any. -/
def runBatch (rom : Rom) : List PatternRec → List (Nat × PImage) × Option BatchError
  | [] => ([], none)
  | p :: rest =>
    match extract_pattern_bitmap rom p with
    | .error e => ([], some e)
    | .ok img =>
      let r := runBatch rom rest
      ((p.number, img) :: r.1, r.2)

/-! ## The matching pipeline (`romscan.py`) -/

/-- `prefix_len = (height + 1) // 2` (`romscan.py` line 31): the reserved
memo-array prefix of a pattern blob. -/
def prefix_len (height : Nat) : Nat := (height + 1) / 2

/-- Bit population count, by fuel-bounded binary recursion (`n` itself is
enough fuel since `n / 2` reaches 0 in at most `n` steps).  Embeds Python's
`bin(x).count('1')` (`romscan.py` line 26). -/
def popCountAux : Nat → Nat → Nat
  | 0, _ => 0
  | fuel + 1, n => if n = 0 then 0 else n % 2 + popCountAux fuel (n / 2)

/-- `bin(x).count('1')`. -/
def popCount (n : Nat) : Nat := popCountAux n n

/-- `hamming_distance` (`romscan.py` lines 20–27): sum of the population
counts of the XORs over `zip(bytes1, bytes2)` (which truncates to the shorter
argument, exactly as Python `zip` does). -/
def hamming_distance (bytes1 bytes2 : List Nat) : Nat :=
  ((bytes1.zip bytes2).map (fun bp => popCount (bp.1 ^^^ bp.2))).sum

/-- Outcome of `exact_search_in_rom`: `None`, the string `"ambiguous"`
(together with the up-to-5 reported offsets of line 50), or the accepted
`(offset, pos + pattern_length)` pair of line 61. -/
inductive ExactOutcome where
  | noMatch
  | ambiguous (reported : List Nat)
  | singleMatch (start stop : Nat)
deriving DecidableEq

/-- The match positions the `while` loop of `exact_search_in_rom`
(`romscan.py` lines 33–42) collects inside one search range: the range is
skipped when `prefix_len + pattern_len > end_pos - start_pos` (line 34,
a Python `int` comparison, hence taken over `ℤ`), otherwise every position
`pos ∈ [start_pos + prefix_len, end_pos)` at which `rom_data.find(pattern,
pos, end_pos)` succeeds — i.e. the full pattern fits before `end_pos` and the
bytes match — is recorded (the `pos += 1` restart finds overlapping
occurrences as well). -/
def occurrencesInGap (rom : Rom) (pattern : List Nat) (pl : Nat)
    (g : Nat × Nat) : List Nat :=
  if (pl + pattern.length : Int) > (g.2 : Int) - (g.1 : Int) then []
  else
    (List.range' (g.1 + pl) (g.2 - (g.1 + pl))).filter
      (fun p => decide (p + pattern.length ≤ g.2) &&
        (romSlice rom p pattern.length == pattern))

/-- All match positions collected across the search ranges, in scan order. -/
def exactOccurrences (rom : Rom) (pattern : List Nat) (height : Nat)
    (gaps : List (Nat × Nat)) : List Nat :=
  gaps.flatMap (occurrencesInGap rom pattern (prefix_len height))

/-- `exact_search_in_rom` (`romscan.py` lines 29–61): no match ↦ `None`; more
than one match ↦ report `matches[:5]` and return `"ambiguous"`; exactly one
match at `pos` ↦ `(pos - prefix_len, pos + pattern_length, None)`. -/
def exact_search_in_rom (rom : Rom) (pattern : List Nat) (height : Nat)
    (gaps : List (Nat × Nat)) : ExactOutcome :=
  match exactOccurrences rom pattern height gaps with
  | [] => .noMatch
  | [p] => .singleMatch (p - prefix_len height) (p + pattern.length)
  | p :: q :: rest => .ambiguous ((p :: q :: rest).take 5)

/-- `max_errors = int(pattern_len * 8 * 0.1)` (`romscan.py` line 82).  The
source computes this with IEEE doubles; since the double closest to `0.1`
satisfies `10 * (0.1 : Float) = 1 + 2⁻⁵⁴` exactly, `pattern_len * 8 * 0.1`
truncates to `pattern_len * 8 / 10` for every pattern length below `2⁴⁹`,
i.e. for every list that fits in memory; the embedding uses the `Nat`
division. -/
def max_errors (pattern_len : Nat) : Nat := pattern_len * 8 / 10

/-- Outcome of `fuzzy_search_in_rom`: `None` with no qualifying window;
`None` after reporting up to 5 tied best positions (lines 94–101); or the
accepted `(offset, pos + pattern_length, best_distance)` triple. -/
inductive FuzzyOutcome where
  | noMatch
  | ambiguous (tied : List Nat)
  | found (start stop distance : Nat)
deriving DecidableEq

/-- The `found_positions` list of `fuzzy_search_in_rom` (`romscan.py` lines
76–87): for each range (skipped when `pattern_len > end_pos - start_pos`,
line 78, over `ℤ`), every window position
`pos ∈ range(start_pos, end_pos - pattern_len + 1)` whose Hamming distance to
the pattern is at most `max_errors`, paired with that distance, in scan
order. -/
def fuzzyCandidates (rom : Rom) (pattern : List Nat)
    (gaps : List (Nat × Nat)) : List (Nat × Nat) :=
  gaps.flatMap fun g =>
    if (pattern.length : Int) > (g.2 : Int) - (g.1 : Int) then []
    else
      (List.range' g.1 (g.2 - g.1 - pattern.length + 1)).filterMap fun p =>
        let d := hamming_distance pattern (romSlice rom p pattern.length)
        if d ≤ max_errors pattern.length then some (p, d) else none

/-- One step of the `best_pos` / `best_distance` update of lines 84–86:
a qualifying window replaces the best seen so far exactly when its distance
is strictly smaller (the initial `best_distance = ∞` means the first window
always becomes the best). -/
def bestStep (best : Option (Nat × Nat)) (c : Nat × Nat) : Option (Nat × Nat) :=
  match best with
  | none => some c
  | some b => if c.2 < b.2 then some c else some b

/-- The `best_pos` / `best_distance` scan of lines 66–87: the result is the
first window attaining the minimum distance (`none` when no window
qualifies). -/
def bestScan (cands : List (Nat × Nat)) : Option (Nat × Nat) :=
  cands.foldl bestStep none

/-- `fuzzy_search_in_rom` (`romscan.py` lines 63–109).  `best_matches` counts
the qualifying windows whose distance equals the best distance; more than one
reports up to 5 of them and returns `None`, otherwise the unique best window
is accepted as `(pos - (height+1)//2, pos + pattern_length, best_distance)`.
The source computes the offset with Python ints; the `Nat` subtraction here
agrees with it whenever `pos ≥ prefix_len`, which holds for every search
range the program builds (they all start at or above `0x50000`). -/
def fuzzy_search_in_rom (rom : Rom) (pattern : List Nat) (height : Nat)
    (gaps : List (Nat × Nat)) : FuzzyOutcome :=
  let cands := fuzzyCandidates rom pattern gaps
  match bestScan cands with
  | none => .noMatch
  | some (pos, bestD) =>
    let tied := cands.filter (fun c => c.2 == bestD)
    if 1 < tied.length then .ambiguous ((tied.take 5).map Prod.fst)
    else .found (pos - prefix_len height) (pos + pattern.length) bestD

/-- `sorted(results, key=lambda x: x[1][0])` (`romscan.py` line 179):
the accepted `(start, end)` ranges sorted by start offset. -/
def sortByStart (rs : List (Nat × Nat)) : List (Nat × Nat) :=
  rs.insertionSort (fun a b => a.1 ≤ b.1)

/-- The loop of `find_gaps` (`romscan.py` lines 176–188) over the sorted
ranges: a gap `(last_end, start)` is emitted whenever `start > last_end`,
`last_end` is then unconditionally set to `end`; a final gap
`(last_end, rom_size)` is emitted when `last_end < rom_size`. -/
def find_gaps_aux (last_end : Nat) (sorted : List (Nat × Nat))
    (rom_size : Nat) : List (Nat × Nat) :=
  match sorted with
  | [] => if last_end < rom_size then [(last_end, rom_size)] else []
  | (s, e) :: rest =>
    (if last_end < s then [(last_end, s)] else []) ++ find_gaps_aux e rest rom_size

/-- `find_gaps` (`romscan.py` lines 175–188), starting from
`last_end = 0x50000`. -/
def find_gaps (results : List (Nat × Nat)) (rom_size : Nat) : List (Nat × Nat) :=
  find_gaps_aux index_base (sortByStart results) rom_size

/-- The initial gap set `gaps = [(0x50000, rom_size)]` (`romscan.py`
line 235).  Note that it starts at the index base itself, not after the
683 × 12-byte index table. -/
def initialGaps (rom : Rom) : List (Nat × Nat) := [(index_base, rom.size)]

/-- Membership of an address in a half-open `(start, end)` range. -/
def inR (a : Nat) (r : Nat × Nat) : Prop := r.1 ≤ a ∧ a < r.2

instance (a : Nat) (r : Nat × Nat) : Decidable (inR a r) := by
  unfold inR; infer_instance

/-- Membership of an address in some range of a list. -/
def inSet (a : Nat) (rs : List (Nat × Nat)) : Prop := ∃ r ∈ rs, inR a r

instance (a : Nat) (rs : List (Nat × Nat)) : Decidable (inSet a rs) := by
  unfold inSet; infer_instance

/-- One slice assignment `rom_data_copy[start:start+length] = bytes(length)`
(`romscan.py` line 312), with `length = end - start`. -/
def writeZeros (buf : List Nat) (s e : Nat) : List Nat :=
  buf.take s ++ List.replicate (e - s) 0 ++ buf.drop (s + (e - s))

/-- `zero_patterns_in_rom` (`romscan.py` lines 304–316): copy the ROM bytes
(`bytearray(rom_data)`) and zero every accepted `[start, end)` range.  The
written output file is the returned buffer. -/
def zero_patterns_in_rom (rom : Rom) (results : List (Nat × Nat)) : List Nat :=
  results.foldl (fun buf r => writeZeros buf r.1 r.2)
    ((List.range rom.size).map rom.data)

/-- The sequences of `(start, end)` ranges the matching loop of `romscan.py`
(lines 237–282) can accept, in order: each step searches the gap set
recomputed from the ranges accepted so far (`find_gaps`; for the very first
search, `find_gaps [] = [(0x50000, rom_size)]` coincides with the initial
gap list of line 235 whenever `rom_size > 0x50000`) and appends the range a
successful `exact_search_in_rom` or `fuzzy_search_in_rom` returns. -/
inductive MatcherRun (rom : Rom) : List (Nat × Nat) → Prop where
  | nil : MatcherRun rom []
  | exact (rs : List (Nat × Nat)) (pattern : List Nat) (height s e : Nat) :
      MatcherRun rom rs →
      exact_search_in_rom rom pattern height (find_gaps rs rom.size) =
        .singleMatch s e →
      MatcherRun rom (rs ++ [(s, e)])
  | fuzzy (rs : List (Nat × Nat)) (pattern : List Nat) (height s e d : Nat) :
      MatcherRun rom rs →
      fuzzy_search_in_rom rom pattern height (find_gaps rs rom.size) =
        .found s e d →
      MatcherRun rom (rs ++ [(s, e)])

/-- Accepted-match sequences in which every accepted range is non-empty and
contained in a gap of the gap set in force when it was accepted.  Every range
an `exact_search_in_rom` acceptance produces is of this shape; a fuzzy
acceptance is of this shape exactly when its window starts at least
`prefix_len` bytes into its gap. -/
inductive AcceptedRanges (rom_size : Nat) : List (Nat × Nat) → Prop where
  | nil : AcceptedRanges rom_size []
  | snoc (rs : List (Nat × Nat)) (r g : Nat × Nat) :
      AcceptedRanges rom_size rs →
      g ∈ find_gaps rs rom_size →
      g.1 ≤ r.1 → r.1 < r.2 → r.2 ≤ g.2 →
      AcceptedRanges rom_size (rs ++ [r])

/-! ## Helper lemmas about the search primitives -/

lemma mem_occurrencesInGap {rom : Rom} {pattern : List Nat} {pl : Nat}
    {g : Nat × Nat} {p : Nat} :
    p ∈ occurrencesInGap rom pattern pl g ↔
      g.1 + pl ≤ p ∧ p < g.2 ∧ p + pattern.length ≤ g.2 ∧
        romSlice rom p pattern.length = pattern := by
  unfold occurrencesInGap
  split
  · rename_i h
    simp only [List.not_mem_nil, false_iff]
    rintro ⟨h1, h2, h3, h4⟩
    omega
  · rename_i h
    simp only [List.mem_filter, List.mem_range', Bool.and_eq_true,
      decide_eq_true_eq, beq_iff_eq]
    constructor
    · rintro ⟨⟨i, hi, rfl⟩, hle, hsl⟩
      refine ⟨by omega, by omega, hle, hsl⟩
    · rintro ⟨h1, h2, h3, h4⟩
      exact ⟨⟨p - (g.1 + pl), by omega, by omega⟩, h3, h4⟩

lemma mem_exactOccurrences {rom : Rom} {pattern : List Nat} {height : Nat}
    {gaps : List (Nat × Nat)} {p : Nat} :
    p ∈ exactOccurrences rom pattern height gaps ↔
      ∃ g ∈ gaps, g.1 + prefix_len height ≤ p ∧ p < g.2 ∧
        p + pattern.length ≤ g.2 ∧ romSlice rom p pattern.length = pattern := by
  unfold exactOccurrences
  simp only [List.mem_flatMap, mem_occurrencesInGap]

lemma mem_fuzzyCandidates {rom : Rom} {pattern : List Nat}
    {gaps : List (Nat × Nat)} {p d : Nat} :
    (p, d) ∈ fuzzyCandidates rom pattern gaps ↔
      (∃ g ∈ gaps, g.1 ≤ p ∧ p + pattern.length ≤ g.2) ∧
        d = hamming_distance pattern (romSlice rom p pattern.length) ∧
        d ≤ max_errors pattern.length := by
  unfold fuzzyCandidates
  simp only [List.mem_flatMap]
  constructor
  · rintro ⟨g, hg, hmem⟩
    split at hmem
    · simp at hmem
    · rename_i h
      simp only [List.mem_filterMap, List.mem_range'] at hmem
      obtain ⟨q, ⟨i, hi, rfl⟩, hq⟩ := hmem
      split at hq
      · rename_i hd
        obtain ⟨rfl, rfl⟩ := Prod.mk.injEq .. ▸ Option.some.injEq .. ▸ hq
        refine ⟨⟨g, hg, by omega, by omega⟩, rfl, hd⟩
      · simp at hq
  · rintro ⟨⟨g, hg, h1, h2⟩, rfl, hd⟩
    refine ⟨g, hg, ?_⟩
    have hskip : ¬ ((pattern.length : Int) > (g.2 : Int) - (g.1 : Int)) := by omega
    rw [if_neg hskip]
    simp only [List.mem_filterMap, List.mem_range']
    exact ⟨p, ⟨p - g.1, by omega, by omega⟩, by rw [if_pos hd]⟩

lemma foldl_bestStep_some (l : List (Nat × Nat)) (b : Nat × Nat) :
    ∃ c, l.foldl bestStep (some b) = some c ∧ (c = b ∨ c ∈ l) ∧
      c.2 ≤ b.2 ∧ ∀ x ∈ l, c.2 ≤ x.2 := by
  induction l generalizing b with
  | nil => exact ⟨b, rfl, .inl rfl, le_refl _, by simp⟩
  | cons a l ih =>
    simp only [List.foldl_cons, bestStep]
    by_cases h : a.2 < b.2
    · rw [if_pos h]
      obtain ⟨c, hc, hmem, hle, hall⟩ := ih a
      refine ⟨c, hc, ?_, by omega, ?_⟩
      · rcases hmem with rfl | hm
        · exact .inr (List.mem_cons_self ..)
        · exact .inr (List.mem_cons_of_mem _ hm)
      · intro x hx
        rcases List.mem_cons.mp hx with rfl | hm
        · exact hle
        · exact hall x hm
    · rw [if_neg h]
      obtain ⟨c, hc, hmem, hle, hall⟩ := ih b
      refine ⟨c, hc, ?_, hle, ?_⟩
      · rcases hmem with rfl | hm
        · exact .inl rfl
        · exact .inr (List.mem_cons_of_mem _ hm)
      · intro x hx
        rcases List.mem_cons.mp hx with rfl | hm
        · omega
        · exact hall x hm

lemma bestScan_spec {cands : List (Nat × Nat)} {c : Nat × Nat}
    (h : bestScan cands = some c) : c ∈ cands ∧ ∀ x ∈ cands, c.2 ≤ x.2 := by
  cases cands with
  | nil => simp [bestScan] at h
  | cons a l =>
    have : bestScan (a :: l) = l.foldl bestStep (some a) := rfl
    rw [this] at h
    obtain ⟨c', hc', hmem, hle, hall⟩ := foldl_bestStep_some l a
    rw [hc'] at h
    obtain rfl : c' = c := Option.some.inj h
    constructor
    · rcases hmem with rfl | hm
      · exact List.mem_cons_self ..
      · exact List.mem_cons_of_mem _ hm
    · intro x hx
      rcases List.mem_cons.mp hx with rfl | hm
      · exact hle
      · exact hall x hm

lemma bestScan_eq_none {cands : List (Nat × Nat)} :
    bestScan cands = none ↔ cands = [] := by
  cases cands with
  | nil => simp [bestScan]
  | cons a l =>
    have h : bestScan (a :: l) = l.foldl bestStep (some a) := rfl
    obtain ⟨c', hc', _, _, _⟩ := foldl_bestStep_some l a
    simp [h, hc']

lemma two_le_length_of_mem_ne {α : Type} {l : List α} {a b : α}
    (ha : a ∈ l) (hb : b ∈ l) (hne : a ≠ b) : 2 ≤ l.length := by
  cases l with
  | nil => simp at ha
  | cons x xs =>
    cases xs with
    | nil =>
      simp only [List.mem_singleton] at ha hb
      exact absurd (ha.trans hb.symm) hne
    | cons y ys => simp only [List.length_cons]; omega

/-! ## Claim C1: exact search -/

/-- **C1**: if the pattern occurs exactly once as a literal substring within
the searched region of the gaps (at position `P`, at or beyond the reserved
prefix of `⌈height/2⌉` bytes from a gap's start and fitting before the gap's
end), exact search returns `singleMatch` with start `P - prefix_len` and end
`P + pattern.length`; two or more occurrences across all gaps give
`ambiguous` with no accepted offset and the first 5 occurrence positions
reported; no occurrence gives `noMatch`.  The first conjunct identifies the
operational occurrence list with the searched-region description used by the
other three. -/
theorem exact_search_matches_spec (rom : Rom) (pattern : List Nat)
    (height : Nat) (gaps : List (Nat × Nat)) :
    (∀ p, p ∈ exactOccurrences rom pattern height gaps ↔
        ∃ g ∈ gaps, g.1 + prefix_len height ≤ p ∧ p < g.2 ∧
          p + pattern.length ≤ g.2 ∧ romSlice rom p pattern.length = pattern)
    ∧ (∀ P, exactOccurrences rom pattern height gaps = [P] →
        exact_search_in_rom rom pattern height gaps =
          .singleMatch (P - prefix_len height) (P + pattern.length))
    ∧ (∀ P Q, P ∈ exactOccurrences rom pattern height gaps →
        Q ∈ exactOccurrences rom pattern height gaps → P ≠ Q →
        exact_search_in_rom rom pattern height gaps =
          .ambiguous ((exactOccurrences rom pattern height gaps).take 5))
    ∧ (exactOccurrences rom pattern height gaps = [] →
        exact_search_in_rom rom pattern height gaps = .noMatch) := by
  refine ⟨fun p => mem_exactOccurrences, ?_, ?_, ?_⟩
  · intro P h
    unfold exact_search_in_rom
    rw [h]
  · intro P Q hP hQ hne
    unfold exact_search_in_rom
    rcases hocc : exactOccurrences rom pattern height gaps with _ | ⟨x, _ | ⟨y, rest⟩⟩
    · rw [hocc] at hP; simp at hP
    · rw [hocc] at hP hQ
      simp only [List.mem_singleton] at hP hQ
      exact absurd (hP.trans hQ.symm) hne
    · rfl
  · intro h
    unfold exact_search_in_rom
    rw [h]

def rom1ex : Rom := ⟨fun i => i, 6⟩

/-- Witness for C1: in a 6-byte buffer `0,1,2,3,4,5` the pattern `[2,3]`
(height 2, so prefix 1) occurs exactly once, at position 2 of the single
search range `(0, 6)`; exact search accepts `(1, 4)`. -/
theorem exact_search_matches_spec_witness :
    exact_search_in_rom rom1ex [2, 3] 2 [(0, 6)] = .singleMatch 1 4 :=
  (exact_search_matches_spec rom1ex [2, 3] 2 [(0, 6)]).2.1 2 (by decide)

/-! ## Claim C2: fuzzy search -/

/-- **C2**: fuzzy search scans a window of `pattern.length` bytes at every
byte position where the window fits inside a gap; a window qualifies iff its
Hamming distance to the pattern is at most `⌊pattern.length · 8 · 0.10⌋`
(first conjunct).  If exactly one scanned window attains the minimum
qualifying distance `D` — at position `P` — the match is accepted with start
`P - prefix_len`, end `P + pattern.length` and distance `D` (second
conjunct).  If two or more windows tie at the minimum distance, no match is
accepted and the first 5 tied positions are reported (third conjunct).  With
no qualifying window the result is `noMatch` (fourth conjunct). -/
theorem fuzzy_search_matches_spec (rom : Rom) (pattern : List Nat)
    (height : Nat) (gaps : List (Nat × Nat)) :
    (∀ p d, (p, d) ∈ fuzzyCandidates rom pattern gaps ↔
        (∃ g ∈ gaps, g.1 ≤ p ∧ p + pattern.length ≤ g.2) ∧
          d = hamming_distance pattern (romSlice rom p pattern.length) ∧
          d ≤ max_errors pattern.length)
    ∧ (∀ P D, (∀ c ∈ fuzzyCandidates rom pattern gaps, D ≤ c.2) →
        (∀ c ∈ fuzzyCandidates rom pattern gaps, c.2 = D → c = (P, D)) →
        (fuzzyCandidates rom pattern gaps).count (P, D) = 1 →
        fuzzy_search_in_rom rom pattern height gaps =
          .found (P - prefix_len height) (P + pattern.length) D)
    ∧ (∀ c1 c2, c1 ∈ fuzzyCandidates rom pattern gaps →
        c2 ∈ fuzzyCandidates rom pattern gaps → c1 ≠ c2 → c1.2 = c2.2 →
        (∀ c ∈ fuzzyCandidates rom pattern gaps, c1.2 ≤ c.2) →
        fuzzy_search_in_rom rom pattern height gaps =
          .ambiguous ((((fuzzyCandidates rom pattern gaps).filter
            (fun c => c.2 == c1.2)).take 5).map Prod.fst))
    ∧ (fuzzyCandidates rom pattern gaps = [] →
        fuzzy_search_in_rom rom pattern height gaps = .noMatch) := by
  refine ⟨fun p d => mem_fuzzyCandidates, ?_, ?_, ?_⟩
  · intro P D hmin huniq hcount
    have hmem : (P, D) ∈ fuzzyCandidates rom pattern gaps :=
      List.count_pos_iff.mp (by omega)
    obtain ⟨c, hbs⟩ : ∃ c, bestScan (fuzzyCandidates rom pattern gaps) = some c := by
      rcases h : bestScan (fuzzyCandidates rom pattern gaps) with _ | c
      · rw [bestScan_eq_none] at h
        rw [h] at hmem
        simp at hmem
      · exact ⟨c, rfl⟩
    obtain ⟨hcmem, hcmin⟩ := bestScan_spec hbs
    have hceq : c = (P, D) := by
      refine huniq c hcmem (le_antisymm (hcmin _ hmem) (hmin c hcmem))
    subst hceq
    have hfil : (fuzzyCandidates rom pattern gaps).filter
        (fun c => c.2 == (D : Nat)) = [(P, D)] := by
      have hall : ∀ c ∈ (fuzzyCandidates rom pattern gaps).filter
          (fun c => c.2 == (D : Nat)), c = (P, D) := by
        intro c hc
        rw [List.mem_filter] at hc
        exact huniq c hc.1 (by simpa using hc.2)
      have hlen : ((fuzzyCandidates rom pattern gaps).filter
          (fun c => c.2 == (D : Nat))).length = 1 := by
        have hce : ((fuzzyCandidates rom pattern gaps).filter
            (fun c => c.2 == (D : Nat))).count (P, D) =
            ((fuzzyCandidates rom pattern gaps).filter
              (fun c => c.2 == (D : Nat))).length :=
          List.count_eq_length.mpr (fun b hb => (hall b hb).symm)
        rw [List.count_filter (by simp)] at hce
        omega
      rcases hf : (fuzzyCandidates rom pattern gaps).filter
          (fun c => c.2 == (D : Nat)) with _ | ⟨x, _ | _⟩
      · rw [hf] at hlen; simp at hlen
      · rw [hf] at hall
        rw [hf, hall x (by simp)]
      · rw [hf] at hlen; simp at hlen
    simp only [fuzzy_search_in_rom]
    rw [hbs]
    dsimp only
    rw [hfil]
    simp
  · intro c1 c2 h1 h2 hne hdeq hmin
    obtain ⟨c, hbs⟩ : ∃ c, bestScan (fuzzyCandidates rom pattern gaps) = some c := by
      rcases h : bestScan (fuzzyCandidates rom pattern gaps) with _ | c
      · rw [bestScan_eq_none] at h
        rw [h] at h1
        simp at h1
      · exact ⟨c, rfl⟩
    obtain ⟨hcmem, hcmin⟩ := bestScan_spec hbs
    have hc2 : c.2 = c1.2 := le_antisymm (hcmin _ h1) (hmin c hcmem)
    have htie : 1 < ((fuzzyCandidates rom pattern gaps).filter
        (fun c => c.2 == c1.2)).length := by
      have m1 : c1 ∈ (fuzzyCandidates rom pattern gaps).filter
          (fun c => c.2 == c1.2) := List.mem_filter.mpr ⟨h1, by simp⟩
      have m2 : c2 ∈ (fuzzyCandidates rom pattern gaps).filter
          (fun c => c.2 == c1.2) := List.mem_filter.mpr ⟨h2, by simp [hdeq]⟩
      have := two_le_length_of_mem_ne m1 m2 hne
      omega
    obtain ⟨pos, bd⟩ := c
    simp only at hc2
    simp only [fuzzy_search_in_rom]
    rw [hbs]
    dsimp only
    rw [hc2, if_pos htie]
  · intro h
    simp only [fuzzy_search_in_rom]
    rw [h]
    rfl

def rom2ex : Rom := ⟨fun i => if i = 3 then 15 else 0, 8⟩

/-- Witness for C2: pattern `[15]` (8 bits, tolerance `⌊8·0.1⌋ = 0`), height
2, single range `(0, 8)` over an 8-byte buffer whose only matching window is
at position 3; fuzzy search accepts `(2, 4)` at distance 0. -/
theorem fuzzy_search_matches_spec_witness :
    fuzzy_search_in_rom rom2ex [15] 2 [(0, 8)] = .found 2 4 0 :=
  (fuzzy_search_matches_spec rom2ex [15] 2 [(0, 8)]).2.1 3 0
    (by decide) (by decide) (by decide)

/-! ## Inversion helpers for accepted search results -/

lemma exact_search_eq_singleMatch {rom : Rom} {pattern : List Nat}
    {height s e : Nat} {gaps : List (Nat × Nat)} :
    exact_search_in_rom rom pattern height gaps = .singleMatch s e ↔
      ∃ P, exactOccurrences rom pattern height gaps = [P] ∧
        s = P - prefix_len height ∧ e = P + pattern.length := by
  unfold exact_search_in_rom
  rcases hocc : exactOccurrences rom pattern height gaps with _ | ⟨p, _ | ⟨q, rest⟩⟩
  · simp
  · constructor
    · intro h
      simp only [ExactOutcome.singleMatch.injEq] at h
      exact ⟨p, rfl, h.1.symm, h.2.symm⟩
    · rintro ⟨P, hP, rfl, rfl⟩
      obtain rfl : P = p := by simpa using hP.symm
      rfl
  · constructor
    · intro h; simp at h
    · rintro ⟨P, hP, _, _⟩
      simp at hP

lemma fuzzy_search_eq_found {rom : Rom} {pattern : List Nat}
    {height s e d : Nat} {gaps : List (Nat × Nat)}
    (h : fuzzy_search_in_rom rom pattern height gaps = .found s e d) :
    ∃ pos, (pos, d) ∈ fuzzyCandidates rom pattern gaps ∧
      s = pos - prefix_len height ∧ e = pos + pattern.length := by
  simp only [fuzzy_search_in_rom] at h
  rcases hbs : bestScan (fuzzyCandidates rom pattern gaps) with _ | ⟨pos, bd⟩
  · rw [hbs] at h; simp at h
  · rw [hbs] at h
    dsimp only at h
    split at h
    · simp at h
    · simp only [FuzzyOutcome.found.injEq] at h
      obtain ⟨h1, h2, h3⟩ := h
      subst h3
      exact ⟨pos, (bestScan_spec hbs).1, h1.symm, h2.symm⟩

/-! ## Claim C10: exact matches stay inside their gap -/

/-- **C10**: every `singleMatch` that exact search derives from an occurrence
found in a gap is contained in that gap: the occurrence position `P` is at
least `gap.start + prefix_len` and at most `gap.end - pattern.length`, the
reported range is `[P - prefix_len, P + pattern.length)`, and therefore
`gap.start ≤ start` and `end ≤ gap.end`. -/
theorem exact_match_within_gap (rom : Rom) (pattern : List Nat)
    (height : Nat) (gaps : List (Nat × Nat)) (s e : Nat)
    (h : exact_search_in_rom rom pattern height gaps = .singleMatch s e) :
    ∃ g ∈ gaps, ∃ P, g.1 + prefix_len height ≤ P ∧ P + pattern.length ≤ g.2 ∧
      s = P - prefix_len height ∧ e = P + pattern.length ∧
      g.1 ≤ s ∧ e ≤ g.2 := by
  obtain ⟨P, hocc, rfl, rfl⟩ := exact_search_eq_singleMatch.mp h
  have hmem : P ∈ exactOccurrences rom pattern height gaps := by
    rw [hocc]; exact List.mem_singleton.mpr rfl
  obtain ⟨g, hg, h1, h2, h3, h4⟩ := mem_exactOccurrences.mp hmem
  exact ⟨g, hg, P, h1, h3, rfl, rfl, by omega, h3⟩

def rom10ex : Rom := ⟨fun i => if i = 5 then 7 else 0, 9⟩

/-- Witness for C10: pattern `[7]` with height 3 (prefix 2) in the gap
`(1, 9)` matches uniquely at position 5 and the accepted range `(3, 6)` lies
inside the gap. -/
theorem exact_match_within_gap_witness :
    exact_search_in_rom rom10ex [7] 3 [(1, 9)] = .singleMatch 3 6 ∧
      ∃ g ∈ [((1 : Nat), (9 : Nat))], ∃ P,
        g.1 + prefix_len 3 ≤ P ∧ P + [7].length ≤ g.2 ∧
        3 = P - prefix_len 3 ∧ 6 = P + [7].length ∧ g.1 ≤ 3 ∧ 6 ≤ g.2 :=
  ⟨by decide, exact_match_within_gap rom10ex [7] 3 [(1, 9)] 3 6 (by decide)⟩

/-! ## Claim C4: searches vs. the gap set and the index table -/

def rom4ex : Rom :=
  ⟨fun i => if i = 0x50000 ∨ i = 0x50001 then 0xAA else 0, 0x50010⟩

/-- Counterexample to C4 as stated.  With the program's initial gap set
`[(0x50000, rom_size)]` (which starts at the index base, not after the
683 × 12-byte index table), fuzzy search accepts the window at position
`0x50000` and reports start `0x50000 - prefix_len = 0x4ffff`:

* the accepted start lies outside every gap of the gap set in force, and
* the accepted range `[0x4ffff, 0x50002)` covers address `0x50000`, which
  lies inside the reserved index table region
  `[index_base, index_base + 683·12)`.

So searches are not kept out of the index table, and accepted fuzzy ranges
can leave the gap set. -/
theorem fuzzy_accept_outside_gap_cex :
    fuzzy_search_in_rom rom4ex [0xAA, 0xAA] 2 (initialGaps rom4ex) =
      .found 0x4ffff 0x50002 0
    ∧ (∀ g ∈ initialGaps rom4ex, ¬ (g.1 ≤ 0x4ffff))
    ∧ inR 0x50000 (0x4ffff, 0x50002)
    ∧ index_base ≤ 0x50000
    ∧ 0x50000 < index_base + PATTERN_COUNT * PATTERN_RECORD_SIZE := by
  exact ⟨by decide, by decide, by decide, by decide, by decide⟩

/-- **C4 (amended)**: both search primitives only examine window positions
inside the current gap set — every exact occurrence position and every fuzzy
candidate window lies within some gap — and every accepted exact match range
is contained in a gap in force.  An accepted fuzzy match, however, may begin
up to `prefix_len` bytes before its gap's start (its end stays within the
gap), and the gap set itself initially includes the reserved index table
region, so index-table bytes may be examined and accepted. -/
theorem search_ranges_within_gaps (rom : Rom) (pattern : List Nat)
    (height : Nat) (gaps : List (Nat × Nat)) :
    (∀ p, p ∈ exactOccurrences rom pattern height gaps →
        ∃ g ∈ gaps, g.1 ≤ p ∧ p + pattern.length ≤ g.2)
    ∧ (∀ p d, (p, d) ∈ fuzzyCandidates rom pattern gaps →
        ∃ g ∈ gaps, g.1 ≤ p ∧ p + pattern.length ≤ g.2)
    ∧ (∀ s e, exact_search_in_rom rom pattern height gaps = .singleMatch s e →
        ∃ g ∈ gaps, g.1 ≤ s ∧ e ≤ g.2)
    ∧ (∀ s e d, fuzzy_search_in_rom rom pattern height gaps = .found s e d →
        ∃ g ∈ gaps, g.1 ≤ s + prefix_len height ∧ e ≤ g.2) := by
  refine ⟨?_, ?_, ?_, ?_⟩
  · intro p hp
    obtain ⟨g, hg, h1, h2, h3, h4⟩ := mem_exactOccurrences.mp hp
    exact ⟨g, hg, by omega, h3⟩
  · intro p d hp
    obtain ⟨⟨g, hg, h1, h2⟩, _, _⟩ := mem_fuzzyCandidates.mp hp
    exact ⟨g, hg, h1, h2⟩
  · intro s e h
    obtain ⟨P, hocc, rfl, rfl⟩ := exact_search_eq_singleMatch.mp h
    have hmem : P ∈ exactOccurrences rom pattern height gaps := by
      rw [hocc]; exact List.mem_singleton.mpr rfl
    obtain ⟨g, hg, h1, h2, h3, h4⟩ := mem_exactOccurrences.mp hmem
    exact ⟨g, hg, by omega, h3⟩
  · intro s e d h
    obtain ⟨pos, hmem, rfl, rfl⟩ := fuzzy_search_eq_found h
    obtain ⟨⟨g, hg, h1, h2⟩, _, _⟩ := mem_fuzzyCandidates.mp hmem
    exact ⟨g, hg, by omega, h2⟩

/-- Witness for the amended C4: the unique exact match of the C1 scenario
has its accepted range `(1, 4)` inside the gap `(0, 6)` it was found in. -/
theorem search_ranges_within_gaps_witness :
    ∃ g ∈ [((0 : Nat), (6 : Nat))], g.1 ≤ 1 ∧ 4 ≤ g.2 :=
  (search_ranges_within_gaps rom1ex [2, 3] 2 [(0, 6)]).2.2.1 1 4 (by decide)

/-! ## Claim C6: the BCD decoder -/

lemma bcd_foldl_closed (bs : List Nat) :
    ∀ acc mult : Nat,
      (bs.foldl
        (fun (a : Nat × Nat) b =>
          (a.1 + (b % 16 + (b / 16 % 16) * 10) * a.2, a.2 * 100))
        (acc, mult)).1 =
      acc + mult * ∑ i ∈ Finset.range bs.length,
        (bs.getD i 0 % 16 + (bs.getD i 0 / 16 % 16) * 10) * 100 ^ i := by
  induction bs with
  | nil => intro acc mult; simp
  | cons b rest ih =>
    intro acc mult
    simp only [List.foldl_cons, ih, List.length_cons]
    rw [Finset.sum_range_succ']
    simp only [List.getD_cons_succ, List.getD_cons_zero, pow_zero, mul_one]
    have key : mult * 100 * (∑ i ∈ Finset.range rest.length,
        (rest.getD i 0 % 16 + rest.getD i 0 / 16 % 16 * 10) * 100 ^ i) =
        mult * ∑ i ∈ Finset.range rest.length,
          (rest.getD i 0 % 16 + rest.getD i 0 / 16 % 16 * 10) * 100 ^ (i + 1) := by
      rw [Finset.mul_sum, Finset.mul_sum]
      exact Finset.sum_congr rfl (fun i _ => by ring)
    rw [mul_add, ← key]
    ring

/-- Counterexample to C6 as stated: `bcd_to_int` performs no nibble
validation and has no error path; on the byte `0xFF` — both nibbles equal 15,
well above 9 — it simply returns `15 + 15·10 = 165` instead of failing with a
hard decode error. -/
theorem bcd_no_error_cex : bcd_to_int [0xFF] = 165 := by decide

/-- **C6 (amended)**: `bcd_to_int` performs no validation and cannot fail;
for every input (valid BCD or not) it returns
`∑ i, (low_nibble i + 10 · high_nibble i) · 100^i`, which on valid BCD input
is the decoded decimal value; the four fixtures hold. -/
theorem bcd_to_int_formula (bs : List Nat) :
    bcd_to_int bs = ∑ i ∈ Finset.range bs.length,
      (bs.getD i 0 % 16 + (bs.getD i 0 / 16 % 16) * 10) * 100 ^ i
    ∧ bcd_to_int [0x01, 0x00] = 1
    ∧ bcd_to_int [0x19, 0x06] = 619
    ∧ bcd_to_int [0x66, 0x00] = 66
    ∧ bcd_to_int [0x00, 0x01] = 100 := by
  refine ⟨?_, by decide, by decide, by decide, by decide⟩
  unfold bcd_to_int
  rw [bcd_foldl_closed bs 0 1]
  simp

/-! ## Claim C5: batch abort on a malformed memo value -/

def rom5ex : Rom := ⟨fun i => if i = 0 then 9 else 0, 16⟩

def p5bad : PatternRec := ⟨2, 1, 8, 1, 0⟩

def p5good : PatternRec := ⟨2, 2, 8, 1, 4⟩

/-- Counterexample to C5 as stated: in a two-pattern batch whose first
pattern has the malformed memo value 9 (outside {0..8, 10, 11}), decoding of
that pattern is aborted with an error report carrying its pattern number —
but the error propagates out of the batch loop of `main` (which has no
exception handler), so the second pattern, which decodes fine on its own, is
never processed: the batch produces no output at all. -/
theorem batch_abort_cex :
    (extract_pattern_bitmap rom5ex p5good).isOk = true
    ∧ runBatch rom5ex [p5bad, p5good] = ([], some (.invalidMemo 1 9)) := by
  exact ⟨by decide, by decide⟩


instance {ε α : Type} [DecidableEq ε] [DecidableEq α] :
    DecidableEq (Except ε α) := fun a b =>
  match a, b with
  | .error e1, .error e2 =>
    if h : e1 = e2 then isTrue (congrArg Except.error h)
    else isFalse (fun hh => h (by injection hh))
  | .ok x, .ok y =>
    if h : x = y then isTrue (congrArg Except.ok h)
    else isFalse (fun hh => h (by injection hh))
  | .error _, .ok _ => isFalse (fun hh => Except.noConfusion hh)
  | .ok _, .error _ => isFalse (fun hh => Except.noConfusion hh)

lemma memoComment_error {num : Nat} {vs : List Nat} {e : BatchError}
    (h : memoComment num vs = .error e) : ∃ v, e = .invalidMemo num v := by
  induction vs with
  | nil => simp [memoComment] at h
  | cons v rest ih =>
    unfold memoComment at h
    rcases hm : memo_value_to_char v with _ | c
    · rw [hm] at h
      simp only [Except.error.injEq] at h
      exact ⟨v, h.symm⟩
    · rw [hm] at h
      rcases hr : memoComment num rest with e' | cs
      · rw [hr] at h
        simp only [Except.map, Except.error.injEq] at h
        subst h
        exact ih hr
      · rw [hr] at h
        simp [Except.map] at h

lemma extract_mono_error {rom : Rom} {p : PatternRec} {e : BatchError}
    (h : extract_monochrome_bitmap rom p = .error e) :
    ∃ v, e = .invalidMemo p.number v := by
  simp only [extract_monochrome_bitmap] at h
  split at h
  · rcases hcm : memoComment p.number (parse_memo_data rom p.offset p.height)
        with e' | cs
    · rw [hcm] at h
      simp only [Except.error.injEq] at h
      subst h
      exact memoComment_error hcm
    · rw [hcm] at h
      simp at h
  · simp at h

/-- **C5 (amended)**: a malformed memo value aborts decoding of that single
pattern with an error report that includes the pattern number (first
conjunct: the only decode error is `invalidMemo` tagged with the failing
pattern's number), but the error then aborts the whole batch: after any
prefix of successfully processed patterns, the failing pattern stops the
loop and none of the remaining patterns is processed. -/
theorem batch_error_aborts_rest (rom : Rom) (xs ys : List PatternRec)
    (p : PatternRec) (e : BatchError)
    (hxs : (runBatch rom xs).2 = none)
    (hp : extract_pattern_bitmap rom p = .error e) :
    (∃ v, e = .invalidMemo p.number v)
    ∧ runBatch rom (xs ++ p :: ys) = ((runBatch rom xs).1, some e) := by
  constructor
  · unfold extract_pattern_bitmap at hp
    split at hp
    · rcases hm : extract_monochrome_bitmap rom p with e' | img
      · rw [hm] at hp
        simp only [Except.map, Except.error.injEq] at hp
        subst hp
        exact extract_mono_error hm
      · rw [hm] at hp
        simp [Except.map] at hp
    · simp at hp
  · revert hxs
    induction xs with
    | nil =>
      intro _
      simp only [List.nil_append, runBatch, hp]
    | cons q rest ih =>
      intro hxs
      simp only [List.cons_append, runBatch] at hxs ⊢
      rcases hq : extract_pattern_bitmap rom q with e' | img
      · rw [hq] at hxs
        simp at hxs
      · rw [hq] at hxs
        dsimp only at hxs ⊢
        simp only [List.append_eq]
        rw [ih hxs]

/-- Witness for the amended C5: the concrete two-pattern batch of
`batch_abort_cex` instantiates the general abort law — the error carries
pattern number 1 and the batch output stops before the second pattern. -/
theorem batch_error_aborts_rest_witness :
    (∃ v, BatchError.invalidMemo 1 9 = .invalidMemo p5bad.number v)
    ∧ runBatch rom5ex ([] ++ p5bad :: [p5good]) =
        ((runBatch rom5ex []).1, some (.invalidMemo 1 9)) :=
  batch_error_aborts_rest rom5ex [] [p5good] p5bad (.invalidMemo 1 9)
    (by decide) (by decide)

/-! ## Claim C8: multicolor palette range -/

lemma getD_zero_mem {l : List Nat} {i : Nat} : l.getD i 0 = 0 ∨ l.getD i 0 ∈ l := by
  by_cases h : i < l.length
  · right
    rw [List.getD_eq_getElem?_getD, List.getElem?_eq_getElem h]
    exact List.getElem_mem h
  · left
    rw [List.getD_eq_getElem?_getD, List.getElem?_eq_none (by omega)]
    rfl

def rom8ex : Rom := ⟨fun i => if i = 0 then 5 else if i = 2 then 1 else 0, 5⟩

def pat8 : PatternRec := ⟨3, 5, 1, 3, 0⟩

/-- Counterexample to C8 as stated: a 1×3 multicolor pattern whose bottom
source row has its bit set and memo value 5 — outside the palette range
0–3 — decodes without any error to the single visible pixel 5; the source
performs no palette-range validation at all. -/
theorem multicolor_out_of_palette_cex :
    extract_multicolor_bitmap rom8ex pat8 = [[5]] ∧ 3 < 5 := by
  exact ⟨by decide, by decide⟩

/-- **C8 (amended)**: multicolor decoding never fails: it is a total function
of the ROM bytes, and every visible pixel value is either 0 or one of the
pattern's memo values, carried through unchecked even when it lies outside
the 4-entry palette range 0–3. -/
theorem multicolor_no_palette_check (rom : Rom) (p : PatternRec) :
    ∀ row ∈ extract_multicolor_bitmap rom p, ∀ c ∈ row,
      c = 0 ∨ c ∈ parse_memo_data rom p.offset p.height := by
  intro row hrow c hc
  simp only [extract_multicolor_bitmap, List.mem_reverse, List.mem_map,
    List.mem_range] at hrow
  obtain ⟨r, hr, rfl⟩ := hrow
  simp only [List.mem_map, List.mem_range] at hc
  obtain ⟨x, hx, rfl⟩ := hc
  split
  · exact getD_zero_mem
  · split
    · exact getD_zero_mem
    · split
      · exact getD_zero_mem
      · exact .inl rfl

/-- Witness for the amended C8: the out-of-palette pixel 5 of the C8
counterexample scenario is indeed one of the pattern's memo values. -/
theorem multicolor_no_palette_check_witness :
    5 = 0 ∨ 5 ∈ parse_memo_data rom8ex pat8.offset pat8.height :=
  multicolor_no_palette_check rom8ex pat8 [5] (by decide) 5 (by decide)

/-! ## Claim C9: zeroing accepted ranges -/

lemma getD_map_range {α : Type} (f : Nat → α) {n i : Nat} (d : α)
    (h : i < n) : ((List.range n).map f).getD i d = f i := by
  rw [List.getD_eq_getElem?_getD, List.getElem?_map, List.getElem?_range h]
  rfl

lemma writeZeros_length {buf : List Nat} {s e : Nat} (hse : s ≤ e)
    (he : e ≤ buf.length) : (writeZeros buf s e).length = buf.length := by
  unfold writeZeros
  simp only [List.length_append, List.length_take, List.length_replicate,
    List.length_drop]
  omega

lemma writeZeros_getD {buf : List Nat} {s e i : Nat} (hse : s ≤ e)
    (he : e ≤ buf.length) :
    (writeZeros buf s e).getD i 0 =
      if s ≤ i ∧ i < e then 0 else buf.getD i 0 := by
  have hts : (buf.take s).length = s := by
    rw [List.length_take]; omega
  have htr : (buf.take s ++ List.replicate (e - s) 0).length = e := by
    rw [List.length_append, hts, List.length_replicate]; omega
  unfold writeZeros
  rw [List.getD_eq_getElem?_getD, List.getD_eq_getElem?_getD,
    List.getElem?_append, htr]
  by_cases hie : i < e
  · rw [if_pos hie, List.getElem?_append, hts]
    by_cases his : i < s
    · rw [if_pos his, List.getElem?_take, if_pos his, if_neg (by omega)]
    · rw [if_neg his, List.getElem?_replicate, if_pos (by omega),
        if_pos (by omega)]
      rfl
  · rw [if_neg hie, List.getElem?_drop]
    have harith : s + (e - s) + (i - e) = i := by omega
    rw [harith, if_neg (by omega)]

lemma zero_fold_spec (results : List (Nat × Nat)) :
    ∀ buf : List Nat, (∀ r ∈ results, r.1 ≤ r.2 ∧ r.2 ≤ buf.length) →
      (results.foldl (fun buf r => writeZeros buf r.1 r.2) buf).length = buf.length
      ∧ ∀ i, (results.foldl (fun buf r => writeZeros buf r.1 r.2) buf).getD i 0 =
          if inSet i results then 0 else buf.getD i 0 := by
  induction results with
  | nil =>
    intro buf h
    refine ⟨rfl, fun i => ?_⟩
    simp [inSet]
  | cons r rs ih =>
    intro buf h
    have hr := h r (List.mem_cons_self ..)
    have hlen : (writeZeros buf r.1 r.2).length = buf.length :=
      writeZeros_length hr.1 hr.2
    have hrs : ∀ q ∈ rs, q.1 ≤ q.2 ∧ q.2 ≤ (writeZeros buf r.1 r.2).length := by
      intro q hq
      rw [hlen]
      exact h q (List.mem_cons_of_mem _ hq)
    obtain ⟨ihlen, ihget⟩ := ih (writeZeros buf r.1 r.2) hrs
    simp only [List.foldl_cons]
    refine ⟨by rw [ihlen, hlen], fun i => ?_⟩
    rw [ihget i, writeZeros_getD hr.1 hr.2]
    by_cases h1 : inSet i rs
    · have h2 : inSet i (r :: rs) := by
        obtain ⟨q, hq, hin⟩ := h1
        exact ⟨q, List.mem_cons_of_mem _ hq, hin⟩
      rw [if_pos h1, if_pos h2]
    · by_cases h3 : r.1 ≤ i ∧ i < r.2
      · have h2 : inSet i (r :: rs) := ⟨r, List.mem_cons_self .., h3⟩
        rw [if_neg h1, if_pos h3, if_pos h2]
      · have h2 : ¬ inSet i (r :: rs) := by
          rintro ⟨q, hq, hin⟩
          rcases List.mem_cons.mp hq with rfl | hq'
          · exact h3 hin
          · exact h1 ⟨q, hq', hin⟩
        rw [if_neg h1, if_neg h3, if_neg h2]

/-- **C9**: `zero_patterns_in_rom` returns a buffer of the same length as
the ROM in which every byte inside some accepted `[start, end)` range is
zero and every byte outside all accepted ranges (index table and remaining
gaps included) equals the corresponding ROM byte; the ROM itself, being a
value, is untouched.  The hypothesis states that the accepted ranges are
well-formed and in bounds, which holds for every range the matcher accepts. -/
theorem zero_patterns_spec (rom : Rom) (results : List (Nat × Nat))
    (hwf : ∀ r ∈ results, r.1 ≤ r.2 ∧ r.2 ≤ rom.size) :
    (zero_patterns_in_rom rom results).length = rom.size
    ∧ ∀ i, i < rom.size →
        (zero_patterns_in_rom rom results).getD i 0 =
          if inSet i results then 0 else rom.data i := by
  have hinit : ((List.range rom.size).map rom.data).length = rom.size := by simp
  have h := zero_fold_spec results ((List.range rom.size).map rom.data)
    (by intro r hr; rw [hinit]; exact hwf r hr)
  unfold zero_patterns_in_rom
  refine ⟨by rw [h.1, hinit], fun i hi => ?_⟩
  rw [h.2 i]
  by_cases hs : inSet i results
  · rw [if_pos hs, if_pos hs]
  · rw [if_neg hs, if_neg hs, getD_map_range rom.data 0 hi]

def rom9ex : Rom := ⟨fun i => i + 1, 4⟩

/-- Witness for C9: zeroing the single range `(1, 3)` in the buffer
`1,2,3,4` keeps length 4, zeroes byte 2 and preserves byte 0. -/
theorem zero_patterns_spec_witness :
    (zero_patterns_in_rom rom9ex [(1, 3)]).length = 4
    ∧ (zero_patterns_in_rom rom9ex [(1, 3)]).getD 2 0 =
        (if inSet 2 [(1, 3)] then 0 else rom9ex.data 2)
    ∧ (zero_patterns_in_rom rom9ex [(1, 3)]).getD 0 0 =
        (if inSet 0 [(1, 3)] then 0 else rom9ex.data 0) :=
  ⟨(zero_patterns_spec rom9ex [(1, 3)] (by decide)).1,
   (zero_patterns_spec rom9ex [(1, 3)] (by decide)).2 2 (by decide),
   (zero_patterns_spec rom9ex [(1, 3)] (by decide)).2 0 (by decide)⟩

/-! ## Claim C7: multicolor decoding -/

lemma filterMap_range_shift {α : Type} (g : Nat → α) (n base m : Nat) :
    (List.range n).filterMap (fun i => if base + i < m then some (g i) else none) =
      (List.range (min n (m - base))).map g := by
  induction n with
  | zero => simp
  | succ n ih =>
    rw [List.range_succ, List.filterMap_append, ih]
    by_cases h : base + n < m
    · have h3 : min n (m - base) = n := by omega
      have h4 : min (n + 1) (m - base) = n + 1 := by omega
      rw [h3, h4, List.range_succ, List.map_append]
      simp [h]
    · have h3 : min (n + 1) (m - base) = min n (m - base) := by omega
      rw [h3]
      simp [h]

lemma rowPixelsAux_length (bytes : List Nat) (idx width : Nat) :
    (rowPixelsAux bytes idx width).length =
      min (8 * bytes.length) (width - 8 * idx) := by
  induction bytes generalizing idx with
  | nil => simp [rowPixelsAux]
  | cons b rest ih =>
    rw [rowPixelsAux, List.length_append, ih (idx + 1),
      filterMap_range_shift (fun bit => if b.testBit bit then 1 else 0) 8
        (idx * 8) width, List.length_map, List.length_range, List.length_cons]
    omega

lemma rowPixelsAux_getD (bytes : List Nat) (idx width x : Nat)
    (h1 : idx * 8 ≤ x) (h2 : x < width)
    (h3 : x < idx * 8 + 8 * bytes.length) :
    (rowPixelsAux bytes idx width).getD (x - idx * 8) 0 =
      (if (bytes.getD (x / 8 - idx) 0).testBit (x % 8) then 1 else 0) := by
  induction bytes generalizing idx with
  | nil =>
    exfalso
    simp only [List.length_nil, Nat.mul_zero, Nat.add_zero] at h3
    omega
  | cons b rest ih =>
    rw [rowPixelsAux,
      filterMap_range_shift (fun bit => if b.testBit bit then 1 else 0) 8
        (idx * 8) width]
    by_cases hx8 : x < idx * 8 + 8
    · have hlt : x - idx * 8 <
          ((List.range (min 8 (width - idx * 8))).map
            (fun bit => if b.testBit bit then 1 else 0)).length := by
        rw [List.length_map, List.length_range]
        omega
      rw [List.getD_append _ _ _ _ hlt,
        getD_map_range (fun bit => if b.testBit bit then 1 else 0) 0
          (show x - idx * 8 < min 8 (width - idx * 8) by omega)]
      have hdiv : x / 8 - idx = 0 := by omega
      have hmod : x % 8 = x - idx * 8 := by omega
      rw [hdiv, List.getD_cons_zero, hmod]
    · have hchunk : ((List.range (min 8 (width - idx * 8))).map
          (fun bit => if b.testBit bit then 1 else 0)).length = 8 := by
        rw [List.length_map, List.length_range]
        omega
      rw [List.getD_append_right _ _ _ _ (by rw [hchunk]; omega), hchunk]
      have hidx : x - idx * 8 - 8 = x - (idx + 1) * 8 := by omega
      rw [hidx, ih (idx + 1) (by omega) (by simp only [List.length_cons] at h3; omega)]
      have hdiv : x / 8 - idx = (x / 8 - (idx + 1)) + 1 := by omega
      rw [hdiv, List.getD_cons_succ]

lemma romSlice_length (rom : Rom) (p len : Nat) (h : p + len ≤ rom.size) :
    (romSlice rom p len).length = len := by
  unfold romSlice
  rw [List.length_map, List.length_range']
  omega

lemma romSlice_getD (rom : Rom) (p len i : Nat) (h1 : i < len)
    (h2 : p + len ≤ rom.size) :
    (romSlice rom p len).getD i 0 = rom.data (p + i) := by
  unfold romSlice
  rw [List.getD_eq_getElem?_getD, List.getElem?_map,
    List.getElem?_range' p 1 (show i < min len (rom.size - p) by omega)]
  simp

lemma decode_mono_getD (rom : Rom) (width height boff row x : Nat)
    (hrow : row < height) (hx : x < width)
    (hin : boff + row * ((width + 7) / 8) + (width + 7) / 8 ≤ rom.size) :
    ((decode_monochrome_bitmap rom width height boff).getD row []).getD x 0 =
      (if (rom.data (boff + row * ((width + 7) / 8) + x / 8)).testBit (x % 8)
       then 1 else 0) := by
  unfold decode_monochrome_bitmap
  rw [getD_map_range _ _ hrow]
  have hlen : (romSlice rom (boff + row * ((width + 7) / 8))
      ((width + 7) / 8)).length = (width + 7) / 8 :=
    romSlice_length _ _ _ (by omega)
  have hx8 : x < 8 * (romSlice rom (boff + row * ((width + 7) / 8))
      ((width + 7) / 8)).length := by
    rw [hlen]; omega
  have := rowPixelsAux_getD
    (romSlice rom (boff + row * ((width + 7) / 8)) ((width + 7) / 8))
    0 width x (by omega) hx (by omega)
  simp only [Nat.zero_mul, Nat.sub_zero] at this
  have hs : (romSlice rom (boff + row * ((width + 7) / 8))
      ((width + 7) / 8)).getD (x / 8) 0 =
      rom.data (boff + row * ((width + 7) / 8) + x / 8) :=
    romSlice_getD _ _ _ _ (by omega) (by omega)
  rw [this]
  simp only [hs]

lemma parse_memo_getD (rom : Rom) (offset height row : Nat)
    (hrow : row < height) (hin : offset + (height + 1) / 2 ≤ rom.size) :
    (parse_memo_data rom offset height).getD row 0 =
      (if row % 2 = 0 then rom.data (offset + row / 2) % 16
       else rom.data (offset + row / 2) / 16) := by
  unfold parse_memo_data
  rw [getD_map_range _ _ hrow]
  rw [romSlice_getD _ _ _ _ (show row / 2 < (height + 1) / 2 by omega) (by omega)]

lemma reverse_map_range_getD {α : Type} (f : Nat → α) (n r : Nat) (d : α)
    (h : r < n) :
    (((List.range n).map f).reverse).getD (n - 1 - r) d = f r := by
  rw [List.getD_eq_getElem?_getD,
    List.getElem?_reverse (by rw [List.length_map, List.length_range]; omega)]
  rw [List.length_map, List.length_range]
  have hidx : n - 1 - (n - 1 - r) = r := by omega
  rw [hidx, List.getElem?_map, List.getElem?_range h]
  rfl

/-- Modelled from the wording of claim C7 (spec §4.3, multicolor decode):
the colour of visible row `r`, column `x` is the memo value of the first
(lowest-indexed) of source rows `3r, 3r+1, 3r+2` whose monochrome bit is set
at column `x`, or 0 when none is set.  The monochrome bit of source row `s`
at column `x` is bit `x % 8` (LSB first) of the byte at
`offset + ⌈height/2⌉ + s·⌈width/8⌉ + x/8`, and the memo value of source row
`s` is the low (even `s`) or high (odd `s`) nibble of the byte at
`offset + s/2`. -/
def multicolorPixelClaim (rom : Rom) (p : PatternRec) (r x : Nat) : Nat :=
  let row_bytes := (p.width + 7) / 8
  let bitmap_offset := p.offset + (p.height + 1) / 2
  let bitOf := fun srow =>
    (rom.data (bitmap_offset + srow * row_bytes + x / 8)).testBit (x % 8)
  let memoOf := fun srow =>
    if srow % 2 = 0 then rom.data (p.offset + srow / 2) % 16
    else rom.data (p.offset + srow / 2) / 16
  if bitOf (3 * r) then memoOf (3 * r)
  else if bitOf (3 * r + 1) then memoOf (3 * r + 1)
  else if bitOf (3 * r + 2) then memoOf (3 * r + 2)
  else 0

/-- **C7**: for a multicolor pattern whose memo array and three-plane bitmap
lie inside the ROM, the decoded output grid has height `⌊height/3⌋` and
width `width`, and — reading the output top-to-bottom, i.e. output row
`height/3 - 1 - r` for storage (bottom-to-top) visible row `r` — every pixel
equals the first-set-plane memo value described by the claim. -/
theorem multicolor_decode_spec (rom : Rom) (p : PatternRec)
    (hin : p.offset + (p.height + 1) / 2 +
      p.height * ((p.width + 7) / 8) ≤ rom.size) :
    (extract_multicolor_bitmap rom p).length = p.height / 3
    ∧ (∀ row ∈ extract_multicolor_bitmap rom p, row.length = p.width)
    ∧ ∀ r, r < p.height / 3 → ∀ x, x < p.width →
        ((extract_multicolor_bitmap rom p).getD (p.height / 3 - 1 - r) []).getD x 0 =
          multicolorPixelClaim rom p r x := by
  refine ⟨by simp [extract_multicolor_bitmap], ?_, ?_⟩
  · intro row hrow
    simp only [extract_multicolor_bitmap, List.mem_reverse, List.mem_map,
      List.mem_range] at hrow
    obtain ⟨r, hr, rfl⟩ := hrow
    simp
  · intro r hr x hx
    simp only [extract_multicolor_bitmap]
    rw [reverse_map_range_getD _ _ _ _ hr]
    rw [getD_map_range _ _ hx]
    rw [Nat.mul_comm r 3]
    have hmul : ∀ i, i ≤ 2 →
        (3 * r + i) * ((p.width + 7) / 8) + ((p.width + 7) / 8) ≤
          p.height * ((p.width + 7) / 8) := by
      intro i hi
      have h1 : 3 * r + i + 1 ≤ p.height := by omega
      calc (3 * r + i) * ((p.width + 7) / 8) + ((p.width + 7) / 8)
          = (3 * r + i + 1) * ((p.width + 7) / 8) := by ring
        _ ≤ p.height * ((p.width + 7) / 8) := Nat.mul_le_mul_right _ h1
    have hb0 := decode_mono_getD rom p.width p.height
      (p.offset + (p.height + 1) / 2) (3 * r) x (by omega) hx
      (by have := hmul 0 (by omega); simp only [Nat.add_zero] at this; omega)
    have hb1 := decode_mono_getD rom p.width p.height
      (p.offset + (p.height + 1) / 2) (3 * r + 1) x (by omega) hx
      (by have := hmul 1 (by omega); omega)
    have hb2 := decode_mono_getD rom p.width p.height
      (p.offset + (p.height + 1) / 2) (3 * r + 2) x (by omega) hx
      (by have := hmul 2 (by omega); omega)
    have hm0 := parse_memo_getD rom p.offset p.height (3 * r) (by omega) (by omega)
    have hm1 := parse_memo_getD rom p.offset p.height (3 * r + 1) (by omega) (by omega)
    have hm2 := parse_memo_getD rom p.offset p.height (3 * r + 2) (by omega) (by omega)
    simp only [hb0, hb1, hb2, hm0, hm1, hm2, multicolorPixelClaim]
    by_cases hc0 : (rom.data (p.offset + (p.height + 1) / 2 +
        3 * r * ((p.width + 7) / 8) + x / 8)).testBit (x % 8)
    · simp [hc0]
    · by_cases hc1 : (rom.data (p.offset + (p.height + 1) / 2 +
          (3 * r + 1) * ((p.width + 7) / 8) + x / 8)).testBit (x % 8)
      · simp [hc0, hc1]
      · by_cases hc2 : (rom.data (p.offset + (p.height + 1) / 2 +
            (3 * r + 2) * ((p.width + 7) / 8) + x / 8)).testBit (x % 8)
        · simp [hc0, hc1, hc2]
        · simp [hc0, hc1, hc2]

/-- Witness for C7: the 1×3 multicolor pattern of the C8 scenario (memo
value 5 on the bottom source row, bit set in plane 0) decodes so that
visible row 0, column 0 carries colour 5, matching the claim formula. -/
theorem multicolor_decode_spec_witness :
    ((extract_multicolor_bitmap rom8ex pat8).getD
        (pat8.height / 3 - 1 - 0) []).getD 0 0 =
      multicolorPixelClaim rom8ex pat8 0 0 :=
  (multicolor_decode_spec rom8ex pat8 (by decide)).2.2 0 (by decide) 0 (by decide)

/-! ## Claim C3: the gap-set partition invariant -/

/-- Two ranges share no address. -/
def RangesDisjoint (r r' : Nat × Nat) : Prop :=
  ∀ a, ¬ (inR a r ∧ inR a r')

instance : IsTotal (Nat × Nat) (fun a b => a.1 ≤ b.1) :=
  ⟨fun a b => Nat.le_total a.1 b.1⟩

instance : IsTrans (Nat × Nat) (fun a b => a.1 ≤ b.1) :=
  ⟨fun _ _ _ h1 h2 => le_trans h1 h2⟩

lemma find_gaps_aux_spec :
    ∀ (l : List (Nat × Nat)) (last rom_size : Nat),
      (∀ r ∈ l, last ≤ r.1 ∧ r.1 < r.2 ∧ r.2 ≤ rom_size) →
      l.Pairwise (fun r r' => r.2 ≤ r'.1) →
      ∀ a, inSet a (find_gaps_aux last l rom_size) ↔
        (last ≤ a ∧ a < rom_size ∧ ¬ inSet a l) := by
  intro l
  induction l with
  | nil =>
    intro last rom_size hwf hchain a
    simp only [find_gaps_aux]
    by_cases h : last < rom_size
    · rw [if_pos h]
      simp only [inSet, inR, List.mem_singleton, List.not_mem_nil,
        false_and, exists_false, not_false_iff, and_true,
        exists_eq_left]
    · rw [if_neg h]
      simp only [inSet, inR, List.not_mem_nil, false_and, exists_false,
        not_false_iff, and_true, false_iff]
      omega
  | cons hd tl ih =>
    intro last rom_size hwf hchain a
    obtain ⟨s, e⟩ := hd
    simp only [find_gaps_aux]
    have hhd := hwf (s, e) (List.mem_cons_self ..)
    obtain ⟨h1, h2, h3⟩ := hhd
    rw [List.pairwise_cons] at hchain
    obtain ⟨hhead, htail⟩ := hchain
    have hwft : ∀ r ∈ tl, e ≤ r.1 ∧ r.1 < r.2 ∧ r.2 ≤ rom_size := by
      intro r hr
      have := hwf r (List.mem_cons_of_mem _ hr)
      exact ⟨hhead r hr, this.2.1, this.2.2⟩
    have iht := ih e rom_size hwft htail a
    constructor
    · rintro ⟨g, hg, hing⟩
      rcases List.mem_append.mp hg with hg' | hg'
      · split at hg'
        · rename_i hls
          rw [List.mem_singleton] at hg'
          subst hg'
          obtain ⟨ha1, ha2⟩ := hing
          refine ⟨by omega, by omega, ?_⟩
          rintro ⟨q, hq, hinq⟩
          rcases List.mem_cons.mp hq with rfl | hq'
          · have := hinq.1
            simp only at this ha2
            omega
          · have hq1 := (hwft q hq').1
            have := hinq.1
            omega
        · simp at hg'
      · obtain ⟨hea, har, hnin⟩ := iht.mp ⟨g, hg', hing⟩
        refine ⟨by omega, har, ?_⟩
        rintro ⟨q, hq, hinq⟩
        rcases List.mem_cons.mp hq with rfl | hq'
        · have := hinq.2
          simp only at this
          omega
        · exact hnin ⟨q, hq', hinq⟩
    · rintro ⟨hla, har, hnin⟩
      by_cases has : a < s
      · refine ⟨(last, s), ?_, ⟨by omega, by omega⟩⟩
        rw [List.mem_append]
        left
        rw [if_pos (by omega)]
        exact List.mem_singleton.mpr rfl
      · have hae : e ≤ a := by
          by_contra hlt
          exact hnin ⟨(s, e), List.mem_cons_self .., ⟨by omega, by omega⟩⟩
        have hrec : inSet a (find_gaps_aux e tl rom_size) :=
          iht.mpr ⟨hae, har, fun hc => by
            obtain ⟨q, hq, hinq⟩ := hc
            exact hnin ⟨q, List.mem_cons_of_mem _ hq, hinq⟩⟩
        obtain ⟨g, hg, hing⟩ := hrec
        exact ⟨g, by rw [List.mem_append]; right; exact hg, hing⟩

lemma chain_of_sorted_disjoint :
    ∀ l : List (Nat × Nat),
      l.Pairwise (fun a b => a.1 ≤ b.1) →
      l.Pairwise RangesDisjoint →
      (∀ r ∈ l, r.1 < r.2) →
      l.Pairwise (fun r r' => r.2 ≤ r'.1) := by
  intro l
  induction l with
  | nil => intro _ _ _; exact List.Pairwise.nil
  | cons hd tl ih =>
    intro hs hd2 hne
    rw [List.pairwise_cons] at hs hd2 ⊢
    refine ⟨?_, ih hs.2 hd2.2 (fun r hr => hne r (List.mem_cons_of_mem _ hr))⟩
    intro r hr
    have hle := hs.1 r hr
    have hdis := hd2.1 r hr
    have hne2 := hne r (List.mem_cons_of_mem _ hr)
    by_contra hlt
    push_neg at hlt
    exact hdis r.1 ⟨⟨by omega, by omega⟩, ⟨le_refl _, hne2⟩⟩

lemma find_gaps_spec {rom_size : Nat} {rs : List (Nat × Nat)}
    (hwf : ∀ r ∈ rs, index_base ≤ r.1 ∧ r.1 < r.2 ∧ r.2 ≤ rom_size)
    (hdisj : rs.Pairwise RangesDisjoint) :
    ∀ a, inSet a (find_gaps rs rom_size) ↔
      (index_base ≤ a ∧ a < rom_size ∧ ¬ inSet a rs) := by
  intro a
  unfold find_gaps
  have hperm : (sortByStart rs).Perm rs := List.perm_insertionSort _ _
  have hsorted : (sortByStart rs).Pairwise (fun a b => a.1 ≤ b.1) :=
    List.sorted_insertionSort (fun (a b : Nat × Nat) => a.1 ≤ b.1) rs
  have hsymm : ∀ {x y : Nat × Nat}, RangesDisjoint x y → RangesDisjoint y x :=
    fun h a hc => h a ⟨hc.2, hc.1⟩
  have hdisj' : (sortByStart rs).Pairwise RangesDisjoint :=
    (hperm.pairwise_iff hsymm).mpr hdisj
  have hwf' : ∀ r ∈ sortByStart rs,
      index_base ≤ r.1 ∧ r.1 < r.2 ∧ r.2 ≤ rom_size :=
    fun r hr => hwf r (hperm.mem_iff.mp hr)
  have hchain := chain_of_sorted_disjoint _ hsorted hdisj'
    (fun r hr => (hwf' r hr).2.1)
  rw [find_gaps_aux_spec (sortByStart rs) index_base rom_size hwf' hchain a]
  have hmem : inSet a (sortByStart rs) ↔ inSet a rs := by
    unfold inSet
    constructor
    · rintro ⟨r, hr, h⟩
      exact ⟨r, hperm.mem_iff.mp hr, h⟩
    · rintro ⟨r, hr, h⟩
      exact ⟨r, hperm.mem_iff.mpr hr, h⟩
  rw [hmem]

lemma acceptedRanges_wf {rom_size : Nat} {rs : List (Nat × Nat)}
    (h : AcceptedRanges rom_size rs) :
    (∀ r ∈ rs, index_base ≤ r.1 ∧ r.1 < r.2 ∧ r.2 ≤ rom_size)
    ∧ rs.Pairwise RangesDisjoint := by
  induction h with
  | nil => exact ⟨by simp, List.Pairwise.nil⟩
  | snoc rs r g hacc hg hg1 hr12 hg2 ih =>
    obtain ⟨ihwf, ihdisj⟩ := ih
    have hgap := find_gaps_spec ihwf ihdisj
    have hgin : ∀ a, inR a g →
        index_base ≤ a ∧ a < rom_size ∧ ¬ inSet a rs :=
      fun a ha => (hgap a).mp ⟨g, hg, ha⟩
    have hr1 := hgin r.1 ⟨hg1, by omega⟩
    have hrlast := hgin (r.2 - 1) ⟨by omega, by omega⟩
    refine ⟨?_, ?_⟩
    · intro q hq
      rcases List.mem_append.mp hq with hq' | hq'
      · exact ihwf q hq'
      · rw [List.mem_singleton] at hq'
        subst hq'
        exact ⟨hr1.1, hr12, by omega⟩
    · rw [List.pairwise_append]
      refine ⟨ihdisj, List.pairwise_singleton .., ?_⟩
      intro q hq r' hr'
      rw [List.mem_singleton] at hr'
      intro a hc
      have haq : inR a q := hc.1
      have har : inR a r := hr' ▸ hc.2
      have hag : inR a g := ⟨by have := har.1; omega, by have := har.2; omega⟩
      exact (hgin a hag).2.2 ⟨q, hq, haq⟩

/-- **C3 (amended)**: after any sequence of accepted matches each of which is
non-empty and contained in a gap of the gap set in force when it was accepted
(every exact acceptance is of this shape; a fuzzy acceptance is whenever its
window starts at least `prefix_len` bytes into its gap), the recomputed gap
set and the accepted ranges partition the search window
`[0x50000, rom_size)` exactly: every window address is in a range or a gap,
window addresses only, no gap overlaps an accepted range, and no accepted
range overlaps another. -/
theorem gap_partition_of_contained_accepts (rom_size : Nat)
    (rs : List (Nat × Nat)) (h : AcceptedRanges rom_size rs) :
    (∀ a, (index_base ≤ a ∧ a < rom_size) ↔
        (inSet a rs ∨ inSet a (find_gaps rs rom_size)))
    ∧ (∀ a, ¬ (inSet a rs ∧ inSet a (find_gaps rs rom_size)))
    ∧ rs.Pairwise RangesDisjoint := by
  obtain ⟨hwf, hdisj⟩ := acceptedRanges_wf h
  have hgap := find_gaps_spec hwf hdisj
  refine ⟨?_, ?_, hdisj⟩
  · intro a
    constructor
    · rintro ⟨h1, h2⟩
      by_cases hin : inSet a rs
      · exact .inl hin
      · exact .inr ((hgap a).mpr ⟨h1, h2, hin⟩)
    · rintro (hin | hin)
      · obtain ⟨r, hr, hinr⟩ := hin
        have hb := hwf r hr
        have hi1 := hinr.1
        have hi2 := hinr.2
        exact ⟨by omega, by omega⟩
      · exact ⟨((hgap a).mp hin).1, ((hgap a).mp hin).2.1⟩
  · rintro a ⟨hin, hgin⟩
    exact ((hgap a).mp hgin).2.2 hin

/-- Witness for the amended C3: one accepted range `(0x50001, 0x50003)`
inside the initial gap of a `0x50008`-byte ROM; address `0x50002` is covered
by the range-or-gap union, as the partition law demands. -/
theorem gap_partition_witness :
    inSet 0x50002 [((0x50001 : Nat), (0x50003 : Nat))] ∨
      inSet 0x50002 (find_gaps [(0x50001, 0x50003)] 0x50008) :=
  ((gap_partition_of_contained_accepts 0x50008 [(0x50001, 0x50003)]
      (AcceptedRanges.snoc [] (0x50001, 0x50003) (index_base, 0x50008)
        AcceptedRanges.nil (by decide) (by decide) (by decide)
        (by decide))).1 0x50002).mp (by decide)

def rom3ex : Rom :=
  ⟨fun i => if i = 0x50004 ∨ i = 0x50005 then 5
    else if i = 0x50006 ∨ i = 0x50007 then 9 else 0, 0x50010⟩

/-- Counterexample to C3 as stated.  In this ROM the matcher can accept, in
sequence, the exact match `(0x50003, 0x50006)` for pattern `[5,5]` and then
the fuzzy match `(0x50005, 0x50008)` for pattern `[9,9]` — the fuzzy window
begins at the very start of the gap `(0x50006, 0x50010)`, so the reported
start backs into the already-claimed range.  The two accepted ranges overlap
at address `0x50005`, so the accepted ranges and the recomputed gap set do
not partition the search window. -/
theorem matcher_run_overlap_cex :
    MatcherRun rom3ex [(0x50003, 0x50006), (0x50005, 0x50008)]
    ∧ inR 0x50005 (0x50003, 0x50006) ∧ inR 0x50005 (0x50005, 0x50008) := by
  refine ⟨?_, by decide, by decide⟩
  have h1 : MatcherRun rom3ex ([] ++ [((0x50003 : Nat), (0x50006 : Nat))]) :=
    MatcherRun.exact [] [5, 5] 2 0x50003 0x50006 MatcherRun.nil (by decide)
  exact MatcherRun.fuzzy [(0x50003, 0x50006)] [9, 9] 2 0x50005 0x50008 0 h1
    (by decide)
